import Mathlib

/-!
Verification of the BookChat message storage and identity subsystem.

This file gives a shallow embedding, in Lean 4, of the parts of the
repository that the specification's testable properties talk about:

* `src/storage/archive_manager.py` — `MessageArchiver.get_messages_to_archive`
  and `MessageArchiver.archive_messages` (namespace `Archive`);
* `src/git_manager.py` — `GitManager.format_message`, `GitManager.parse_message`,
  `GitManager.save_message`, `GitManager.handle_username_change` and the
  key-pair handling of its `KeyManager` (namespaces `Codec`, `Keys`, `Store`);
* `src/key_manager.py` — `KeyManager.sign_message` and
  `KeyManager.verify_signature`, together with the subprocess-based
  `verify_signature` variant of `git_manager.py`'s `KeyManager`
  (namespace `Sig`);
* `src/sync_forks.py` — `generate_message_hash`, `generate_message_filename`
  and `copy_messages_to_main` (namespace `Sync`).

Modelling conventions: the filesystem is an association list from file
names to file contents; SQLite rows are a list of records; machine-level
cryptography (RSA, SHA-256) is represented by abstract function parameters
or, for the deduplication hash, by the injective canonical JSON string it
is computed from (a standard collision-freeness abstraction).  Timestamps
handled by SQLite's `datetime` are modelled as `Option Int` (seconds,
`none` meaning the string does not parse as a date).
-/

namespace BookChat

/-! ## Archive manager (`src/storage/archive_manager.py`) -/

namespace Archive

/-- One row of the `messages` table (`id, user, content, timestamp, signature`).
The `ts` field is the value SQLite's `datetime(timestamp)` assigns to the
`timestamp` column, in seconds; `none` models a string `datetime` cannot
parse, which compares as NULL and is therefore never selected. -/
structure Msg where
  id : String
  user : String
  content : String
  ts : Option Int
  signature : Option String
deriving DecidableEq, Repr

/-- State of the archiver: the active rows of the database plus the archive
directory, an association list from archive file name to the list of
records stored in that zip file.  An archive file name
`chat_<startYYYYMMDD>_<endYYYYMMDD>.zip` is determined exactly by the pair
of day numbers of its date range, so names are modelled as `Int × Int`. -/
structure ArchState where
  active : List Msg
  archives : List ((Int × Int) × List Msg)
deriving DecidableEq, Repr

/-- The cutoff `reference_time - timedelta(days=self.days_threshold)`. -/
def thresholdDate (daysThreshold refTime : Int) : Int :=
  refTime - daysThreshold * 86400

/-- The SQL predicate `datetime(timestamp) < datetime(threshold)`: false when
the timestamp does not parse (NULL comparison). -/
def selPred (daysThreshold refTime : Int) (m : Msg) : Bool :=
  match m.ts with
  | some v => decide (v < thresholdDate daysThreshold refTime)
  | none => false

/-- Embeds `MessageArchiver.get_messages_to_archive`: `SELECT * FROM messages
WHERE datetime(timestamp) < datetime(?) ORDER BY timestamp`.  The rows are
kept in database order; the `ORDER BY` only matters for the first/last
entries, which the embedding recovers through `nameOf` below. -/
def get_messages_to_archive (daysThreshold refTime : Int) (active : List Msg) :
    List Msg :=
  active.filter (selPred daysThreshold refTime)

/-- Day number of an epoch-seconds value, mirroring `strftime('%Y%m%d')`:
two timestamps produce the same formatted date exactly when they lie in the
same day, so the day number stands in for the date string. -/
def dayOf (v : Int) : Int := Int.ediv v 86400

/-- Archive name `chat_<first day>_<last day>.zip` built from
`messages[0]['timestamp']` and `messages[-1]['timestamp']` of the
`ORDER BY timestamp` result, i.e. from the minimum and maximum timestamp
of the selected rows. -/
def nameOf (msgs : List Msg) : Int × Int :=
  match msgs.filterMap (·.ts) with
  | [] => (0, 0)
  | v :: vs => (dayOf (vs.foldl min v), dayOf (vs.foldl max v))

/-- Embeds `MessageArchiver.archive_messages`: select the rows older than the
threshold; if none, return `none` (a no-op); otherwise write the zip file
(opening with mode `'w'` replaces any archive of the same name), then
`DELETE` the same rows, and return the archive path. -/
def archive_messages (daysThreshold : Int) (s : ArchState) (refTime : Int) :
    ArchState × Option (Int × Int) :=
  match get_messages_to_archive daysThreshold refTime s.active with
  | [] => (s, none)
  | m :: rest =>
    let nm := nameOf (m :: rest)
    let archives' := (nm, m :: rest) :: s.archives.filter (fun p => decide (p.1 ≠ nm))
    let active' := s.active.filter (fun x => !(selPred daysThreshold refTime x))
    ({ active := active', archives := archives' }, some nm)

/-- The state after one archive run. -/
def archStep (daysThreshold : Int) (s : ArchState) (refTime : Int) : ArchState :=
  (archive_messages daysThreshold s refTime).1

/-- A sequence of archive runs with no interleaved saves. -/
def runArchives (daysThreshold : Int) (s : ArchState) (ts : List Int) : ArchState :=
  ts.foldl (archStep daysThreshold) s

/-- All records of the system: active rows followed by the contents of every
archive bundle.  The union of active and archived messages, as a list
considered up to permutation. -/
def inventoryL (s : ArchState) : List Msg :=
  s.active ++ (s.archives.map (·.2)).flatten

/-- Checks that every run in the sequence either archives nothing or writes
an archive whose generated name is not already present in the archive
directory, so that no zip file is overwritten. -/
def freshSeq (daysThreshold : Int) : ArchState → List Int → Bool
  | _, [] => true
  | s, t :: rest =>
    (match (archive_messages daysThreshold s t).2 with
     | none => true
     | some nm => decide (nm ∉ s.archives.map (·.1)))
    && freshSeq daysThreshold (archStep daysThreshold s t) rest

lemma selPred_eq_false {d t : Int} {m : Msg} :
    selPred d t m = false ↔ ∀ v, m.ts = some v → ¬ v < thresholdDate d t := by
  cases h : m.ts with
  | none => simp [selPred, h]
  | some v => simp [selPred, h]

lemma archive_messages_snd_eq_none {d : Int} {s : ArchState} {t : Int} :
    (archive_messages d s t).2 = none ↔
      get_messages_to_archive d t s.active = [] := by
  cases h : get_messages_to_archive d t s.active with
  | nil => simp [archive_messages, h]
  | cons m rest => simp [archive_messages, h]

lemma get_messages_to_archive_archStep (d : Int) (s : ArchState) (t t' : Int) :
    get_messages_to_archive d t' (archStep d s t).active
      = get_messages_to_archive d t' (s.active.filter
          (fun x => !(selPred d t x)))
    ∨ (archStep d s t) = s := by
  unfold archStep
  cases h : get_messages_to_archive d t s.active with
  | nil => right; simp [archive_messages, h]
  | cons m rest => left; simp [archive_messages, h]

/-- Key step fact: after archiving at `t`, re-selecting at the same `t`
finds nothing. -/
lemma reselect_empty (d : Int) (s : ArchState) (t : Int) :
    get_messages_to_archive d t (archStep d s t).active = [] := by
  unfold archStep
  cases h : get_messages_to_archive d t s.active with
  | nil =>
    have h' : List.filter (selPred d t) s.active = [] := h
    simp [archive_messages, get_messages_to_archive, h']
  | cons m rest =>
    have h' : List.filter (selPred d t) s.active = m :: rest := h
    simp only [archive_messages, get_messages_to_archive, h']
    rw [List.filter_filter]
    apply List.filter_eq_nil_iff.mpr
    intro a _
    cases hp : selPred d t a <;> simp [hp]

/-- Claim C3.  `archive_messages(t)` run twice with the same `t` and no
intervening writes selects nothing on the second run and returns `None`
(a no-op); and in general it returns `None` exactly when no stored message
has a (parseable) timestamp strictly older than `t` minus the day
threshold. -/
theorem archive_idempotent_none_iff (d : Int) (s : ArchState) (t : Int) :
    (archive_messages d (archStep d s t) t).2 = none
    ∧ ((archive_messages d s t).2 = none ↔
        ∀ m ∈ s.active, ∀ v, m.ts = some v → ¬ v < thresholdDate d t) := by
  constructor
  · exact archive_messages_snd_eq_none.mpr (reselect_empty d s t)
  · rw [archive_messages_snd_eq_none]
    unfold get_messages_to_archive
    rw [List.filter_eq_nil_iff]
    simp only [Bool.not_eq_true]
    exact ⟨fun h m hm => selPred_eq_false.mp (h m hm),
           fun h m hm => selPred_eq_false.mpr (h m hm)⟩

lemma inventoryL_archStep_perm (d : Int) (s : ArchState) (t : Int)
    (hfresh : ∀ nm, (archive_messages d s t).2 = some nm →
       nm ∉ s.archives.map (·.1)) :
    List.Perm (inventoryL (archStep d s t)) (inventoryL s) := by
  unfold archStep
  cases h : get_messages_to_archive d t s.active with
  | nil =>
    have h' : List.filter (selPred d t) s.active = [] := h
    simp only [archive_messages, get_messages_to_archive, h']
    exact List.Perm.refl _
  | cons m rest =>
    have h' : List.filter (selPred d t) s.active = m :: rest := h
    have hname := hfresh (nameOf (m :: rest))
      (by simp [archive_messages, get_messages_to_archive, h'])
    have hkeep : s.archives.filter (fun p => decide (p.1 ≠ nameOf (m :: rest)))
        = s.archives := by
      apply List.filter_eq_self.mpr
      intro p hp
      simp only [decide_eq_true_eq]
      intro hcontra
      exact hname (hcontra ▸ List.mem_map_of_mem (·.1) hp)
    simp only [archive_messages, get_messages_to_archive, h', inventoryL, hkeep,
      List.map_cons, List.flatten_cons]
    have hperm : List.Perm
        (s.active.filter (fun x => !(selPred d t x)) ++ ((m :: rest) ++
          (s.archives.map (·.2)).flatten))
        ((s.active.filter (selPred d t) ++
          s.active.filter (fun x => !(selPred d t x))) ++ (s.archives.map (·.2)).flatten) := by
      rw [← h']
      rw [← List.append_assoc]
      exact List.Perm.append_right _ List.perm_append_comm
    refine hperm.trans ?_
    exact List.Perm.append_right _ (List.filter_append_perm _ _)

/-- Claim C2 (amended).  Over any starting state and any sequence of archive
runs with no interleaved saves, provided each run's generated archive name
is fresh (does not collide with an existing bundle, so no zip file is
overwritten), the multiset of records in active storage together with all
archive bundles is exactly the original message history: archiving moves
records without loss or duplication. -/
theorem archive_union_invariant_of_fresh (d : Int) (s : ArchState) (ts : List Int)
    (h : freshSeq d s ts = true) :
    List.Perm (inventoryL (runArchives d s ts)) (inventoryL s) := by
  induction ts generalizing s with
  | nil => exact List.Perm.refl _
  | cons t rest ih =>
    simp only [freshSeq, Bool.and_eq_true] at h
    have h1 := h.1
    have h2 := h.2
    have hstep : List.Perm (inventoryL (archStep d s t)) (inventoryL s) := by
      apply inventoryL_archStep_perm
      intro nm hnm
      rw [hnm] at h1
      simpa using h1
    have := ih (s := archStep d s t) h2
    exact this.trans hstep

/-- Witness for `archive_union_invariant_of_fresh` at a concrete state and
run sequence. -/
theorem archive_union_invariant_of_fresh_witness :
    freshSeq 30 ⟨[⟨"1", "u", "hi", some 3600, none⟩], []⟩ [2595600] = true
    ∧ List.Perm
        (inventoryL (runArchives 30 ⟨[⟨"1", "u", "hi", some 3600, none⟩], []⟩ [2595600]))
        (inventoryL ⟨[⟨"1", "u", "hi", some 3600, none⟩], []⟩) :=
  ⟨by decide, archive_union_invariant_of_fresh 30 _ _ (by decide)⟩

/-- Counterexample to claim C2 as stated: with a 30-day threshold, three
messages at 01:00, 02:00 and 05:00 of day 0, and two archive runs whose
reference times are 03:00 and 10:00 of day 30, both runs generate the
archive name `chat_<day 0>_<day 0>.zip`; the second run overwrites the
first bundle, losing the records archived by run one, so the union of
active and archived records is not preserved. -/
theorem archive_union_counterexample :
    ¬ List.Perm
        (inventoryL (runArchives 30
          ⟨[⟨"1", "u", "a", some 3600, none⟩, ⟨"2", "u", "b", some 7200, none⟩,
            ⟨"3", "u", "c", some 18000, none⟩], []⟩
          [2592000 + 10800, 2592000 + 36000]))
        (inventoryL ⟨[⟨"1", "u", "a", some 3600, none⟩, ⟨"2", "u", "b", some 7200, none⟩,
            ⟨"3", "u", "c", some 18000, none⟩], []⟩) := by
  intro h
  have := h.length_eq
  revert this
  decide

end Archive

/-! ## Association-list lookup used to model directories of files -/

/-- Lookup in an association list, modelling a filesystem directory: file
names map to file contents, `none` meaning the file does not exist. -/
def alook {α : Type} (k : String) : List (String × α) → Option α
  | [] => none
  | p :: rest => if p.1 = k then some p.2 else alook k rest

lemma alook_append {α : Type} (k : String) (l₁ l₂ : List (String × α)) :
    alook k (l₁ ++ l₂) =
      match alook k l₁ with
      | some v => some v
      | none => alook k l₂ := by
  induction l₁ with
  | nil => simp [alook]
  | cons p rest ih =>
    by_cases h : p.1 = k <;> simp [alook, h, ih]

/-- File write over an association-list directory: overwrite the entry when
the file exists, create it otherwise (`Path.write_text` semantics). -/
def writeText {α : Type} (k : String) (v : α) (l : List (String × α)) :
    List (String × α) :=
  match alook k l with
  | some _ => l.map (fun p => if p.1 = k then (k, v) else p)
  | none => l ++ [(k, v)]

lemma alook_map_write {α : Type} {k : String} {v : α} :
    ∀ l : List (String × α),
      alook k (l.map (fun p => if p.1 = k then (k, v) else p))
        = (alook k l).map (fun _ => v) := by
  intro l
  induction l with
  | nil => simp [alook]
  | cons p rest ih =>
    by_cases h : p.1 = k
    · simp [alook, h]
    · simp [alook, h, ih]

lemma alook_writeText_self {α : Type} (k : String) (v : α) (l : List (String × α)) :
    alook k (writeText k v l) = some v := by
  cases hal : alook k l with
  | some w =>
    simp only [writeText, hal]
    rw [alook_map_write, hal]
    rfl
  | none =>
    simp only [writeText, hal]
    rw [alook_append, hal]
    simp [alook]

/-! ## Timestamp formatting shared by `save_message` and the fork merge -/

/-- Numeric value of a two-digit string. -/
def twoDigitVal (a b : Char) : Nat := (a.toNat - 48) * 10 + (b.toNat - 48)

/-- Admissible timezone suffixes of an ISO-8601 timestamp: empty, `Z`
(handled by the callers' `.replace('Z', '+00:00')`), or `±HH:MM`. -/
def tzOk : List Char → Bool
  | [] => true
  | ['Z'] => true
  | [s, a, b, ':', c, d] =>
    (s == '+' || s == '-') && a.isDigit && b.isDigit && c.isDigit && d.isDigit
      && decide (twoDigitVal a b < 24) && decide (twoDigitVal c d < 60)
  | _ => false

/-- The `YYYYMMDD_HHMMSS` rendering of an ISO-8601 timestamp
`YYYY-MM-DDTHH:MM:SS[Z|±HH:MM]`, i.e.
`datetime.fromisoformat(...).strftime('%Y%m%d_%H%M%S')`: `strftime` keeps
the parsed components, so the output is the input's digits re-arranged.
`none` models the `ValueError` raised when the string does not parse.
(Modelling restriction: `fromisoformat` also accepts some rarer shapes
such as fractional seconds or a space separator; the system only writes
the canonical forms covered here, and anything else behaves as a parse
failure.) -/
def isoDatePartL (l : List Char) : Option (List Char) :=
  match l with
  | y1 :: y2 :: y3 :: y4 :: '-' :: mo1 :: mo2 :: '-' :: d1 :: d2 :: 'T' ::
      h1 :: h2 :: ':' :: mi1 :: mi2 :: ':' :: s1 :: s2 :: tail =>
    if ([y1, y2, y3, y4, mo1, mo2, d1, d2, h1, h2, mi1, mi2, s1, s2].all Char.isDigit)
        && tzOk tail
        && decide (1 ≤ twoDigitVal mo1 mo2) && decide (twoDigitVal mo1 mo2 ≤ 12)
        && decide (1 ≤ twoDigitVal d1 d2) && decide (twoDigitVal d1 d2 ≤ 31)
        && decide (twoDigitVal h1 h2 < 24)
        && decide (twoDigitVal mi1 mi2 < 60) && decide (twoDigitVal s1 s2 < 60)
    then some [y1, y2, y3, y4, mo1, mo2, d1, d2, '_', h1, h2, mi1, mi2, s1, s2]
    else none
  | _ => none

/-- String version of `isoDatePartL`. -/
def isoDatePart (s : String) : Option String := (isoDatePartL s.data).map String.mk

/-! ## Key pairs and the rename flow (`src/git_manager.py`, `KeyManager` and
`GitManager.handle_username_change`) -/

namespace Keys

/-- Key directories: `keys/<username>.pem` (private) and
`identity/public_keys/<username>.pub` (public).  Key material is abstracted
to a number drawn from the `fresh` counter, so that newly generated keys
are distinguishable from pre-existing ones. -/
structure KeyState where
  priv : List (String × Nat)
  pub : List (String × Nat)
  fresh : Nat
deriving DecidableEq, Repr

/-- Writing a key file: overwrite the entry if the file exists, else create
it (`Path.write_bytes` semantics). -/
def upsertK (k : String) (v : Nat) (l : List (String × Nat)) : List (String × Nat) :=
  match alook k l with
  | some _ => l.map (fun p => if p.1 = k then (k, v) else p)
  | none => l ++ [(k, v)]

/-- Deleting a key file (`Path.unlink`). -/
def eraseK (k : String) (l : List (String × Nat)) : List (String × Nat) :=
  l.filter (fun p => decide (p.1 ≠ k))

/-- Embeds `KeyManager.generate_keypair`: generate a fresh RSA pair and
write the private and public key files, overwriting any existing pair. -/
def generate_keypair (u : String) (st : KeyState) : KeyState :=
  { priv := upsertK u st.fresh st.priv
    pub := upsertK u (st.fresh + 1) st.pub
    fresh := st.fresh + 2 }

/-- Characters and length admitted by `USERNAME_REGEX = ^[a-zA-Z0-9_]{3,20}$`. -/
def usernameOk (l : List Char) : Bool :=
  decide (3 ≤ l.length) && decide (l.length ≤ 20) &&
    l.all (fun c => c.isAlpha || c.isDigit || c == '_')

/-- Embeds `USERNAME_REGEX.match(new_username)`: Python's `$` also matches
just before a final newline, so a trailing `'\n'` is tolerated. -/
def username_regex_match (s : String) : Bool :=
  usernameOk s.data ||
    (match s.data.getLast? with
     | some '\n' => usernameOk s.data.dropLast
     | _ => false)

/-- Embeds `GitManager.handle_username_change`: validate the new username's
format, then unconditionally generate a fresh key pair for the new
username (overwriting any existing pair for it), then delete the old
username's public key file and, only if that existed, its private key
file.  Returns the new state with the success flag and message. -/
def handle_username_change (old new : String) (st : KeyState) :
    KeyState × Bool × String :=
  if username_regex_match new then
    let st1 := generate_keypair new st
    let st2 :=
      if (alook old st1.pub).isSome then
        let stA : KeyState := { st1 with pub := eraseK old st1.pub }
        if (alook old stA.priv).isSome then { stA with priv := eraseK old stA.priv }
        else stA
      else st1
    (st2, true, "Username changed successfully")
  else
    (st, false,
      "Username must be 3-20 characters long and contain only letters, numbers, and underscores")

lemma alook_map_replace {k : String} {v : Nat} :
    ∀ l : List (String × Nat),
      alook k (l.map (fun p => if p.1 = k then (k, v) else p)) =
        (alook k l).map (fun _ => v) := by
  intro l
  induction l with
  | nil => simp [alook]
  | cons p rest ih =>
    by_cases h : p.1 = k
    · simp [alook, h]
    · simp [alook, h, ih]

lemma alook_map_replace_ne {k k' : String} {v : Nat} (hne : k' ≠ k) :
    ∀ l : List (String × Nat),
      alook k' (l.map (fun p => if p.1 = k then (k, v) else p)) = alook k' l := by
  intro l
  induction l with
  | nil => simp [alook]
  | cons p rest ih =>
    by_cases h : p.1 = k
    · have hkk : ¬ (k = k') := fun hc => hne hc.symm
      simp [alook, h, hkk, ih]
    · simp [alook, h, ih]

lemma alook_upsertK_self (k : String) (v : Nat) (l : List (String × Nat)) :
    alook k (upsertK k v l) = some v := by
  cases hal : alook k l with
  | some w =>
    simp only [upsertK, hal]
    rw [alook_map_replace, hal]
    rfl
  | none =>
    simp only [upsertK, hal]
    rw [alook_append, hal]
    simp [alook]

lemma alook_upsertK_ne {k k' : String} (hne : k' ≠ k) (v : Nat) (l : List (String × Nat)) :
    alook k' (upsertK k v l) = alook k' l := by
  cases hal : alook k l with
  | some w =>
    simp only [upsertK, hal]
    exact alook_map_replace_ne hne l
  | none =>
    simp only [upsertK, hal]
    rw [alook_append]
    cases hl : alook k' l with
    | some v' => rfl
    | none =>
      have hkk : ¬ k = k' := fun hc => hne hc.symm
      simp [alook, hkk]

lemma alook_eraseK_self (k : String) (l : List (String × Nat)) :
    alook k (eraseK k l) = none := by
  induction l with
  | nil => simp [eraseK, alook]
  | cons p rest ih =>
    by_cases h : p.1 = k <;>
      simp only [eraseK, List.filter_cons, h, ne_eq, decide_not] at ih ⊢ <;>
      simp [alook, h, ih, eraseK]

lemma alook_eraseK_ne {k k' : String} (hne : k' ≠ k) (l : List (String × Nat)) :
    alook k' (eraseK k l) = alook k' l := by
  induction l with
  | nil => simp [eraseK, alook]
  | cons p rest ih =>
    by_cases h : p.1 = k
    · have hp : ¬ p.1 = k' := fun hc => hne (hc.symm.trans h)
      have hkk : ¬ k = k' := fun hc => hne hc.symm
      simp only [eraseK, List.filter_cons, h, ne_eq, decide_not] at ih ⊢
      simp [alook, h, hp, hkk, ih, eraseK]
    · simp only [eraseK, List.filter_cons, h, ne_eq, decide_not] at ih ⊢
      by_cases h2 : p.1 = k' <;> simp [alook, h, h2, ih, eraseK]

/-- Counterexample to claim C4 as stated.  In a state where `bob` already
has a key pair (private key `2`, public key `3`), the rename
`alice → bob` is not rejected: it succeeds, `bob`'s public key is replaced
by a freshly generated one, and `alice`'s keys are deleted. -/
theorem handle_username_change_counterexample :
    (alook "bob" (⟨[("alice", 0), ("bob", 2)], [("alice", 1), ("bob", 3)], 4⟩ :
        KeyState).pub).isSome = true
    ∧ (handle_username_change "alice" "bob"
        ⟨[("alice", 0), ("bob", 2)], [("alice", 1), ("bob", 3)], 4⟩).2.1 = true
    ∧ alook "bob" (handle_username_change "alice" "bob"
        ⟨[("alice", 0), ("bob", 2)], [("alice", 1), ("bob", 3)], 4⟩).1.pub ≠ some 3
    ∧ alook "alice" (handle_username_change "alice" "bob"
        ⟨[("alice", 0), ("bob", 2)], [("alice", 1), ("bob", 3)], 4⟩).1.priv = none := by
  decide

/-- Claim C4 (amended).  The rename flow performs no already-exists check:
whenever the new username passes the format check (and differs from the
old one), `handle_username_change` reports success, the new username ends
up bound to a freshly generated key pair — replacing any pair it had
before — and the old username's public key file is gone. -/
theorem handle_username_change_overwrites (st : KeyState) (old new : String)
    (hvalid : username_regex_match new = true) (hne : old ≠ new) :
    (handle_username_change old new st).2.1 = true
    ∧ alook new (handle_username_change old new st).1.pub = some (st.fresh + 1)
    ∧ alook new (handle_username_change old new st).1.priv = some st.fresh
    ∧ alook old (handle_username_change old new st).1.pub = none := by
  have hnew_pub : alook new (generate_keypair new st).pub = some (st.fresh + 1) :=
    alook_upsertK_self _ _ _
  have hnew_priv : alook new (generate_keypair new st).priv = some st.fresh :=
    alook_upsertK_self _ _ _
  simp only [handle_username_change]
  rw [if_pos hvalid]
  cases hpub : alook old (generate_keypair new st).pub with
  | none =>
    simp only [hpub, Option.isSome_none, Bool.false_eq_true, if_false]
    refine ⟨?_, hnew_pub, hnew_priv, ?_⟩ <;> simp [hpub]
  | some w =>
    cases hpriv : alook old (generate_keypair new st).priv with
    | none =>
      simp only [hpub, hpriv, Option.isSome_some, Option.isSome_none, if_true,
        Bool.false_eq_true, if_false]
      refine ⟨?_, ?_, hnew_priv, ?_⟩
      · simp
      · rw [alook_eraseK_ne (fun h => hne h.symm)]; exact hnew_pub
      · exact alook_eraseK_self _ _
    | some w2 =>
      simp only [hpub, hpriv, Option.isSome_some, if_true]
      refine ⟨?_, ?_, ?_, ?_⟩
      · simp
      · rw [alook_eraseK_ne (fun h => hne h.symm)]; exact hnew_pub
      · rw [alook_eraseK_ne (fun h => hne h.symm)]; exact hnew_priv
      · exact alook_eraseK_self _ _

/-- Witness for `handle_username_change_overwrites` at concrete values. -/
theorem handle_username_change_overwrites_witness :
    username_regex_match "bob" = true ∧ "alice" ≠ "bob"
    ∧ ((handle_username_change "alice" "bob"
          (⟨[("alice", 0)], [("alice", 1)], 2⟩ : KeyState)).2.1 = true
       ∧ alook "bob" (handle_username_change "alice" "bob"
          (⟨[("alice", 0)], [("alice", 1)], 2⟩ : KeyState)).1.pub = some 3
       ∧ alook "bob" (handle_username_change "alice" "bob"
          (⟨[("alice", 0)], [("alice", 1)], 2⟩ : KeyState)).1.priv = some 2
       ∧ alook "alice" (handle_username_change "alice" "bob"
          (⟨[("alice", 0)], [("alice", 1)], 2⟩ : KeyState)).1.pub = none) :=
  ⟨by decide, by decide,
    handle_username_change_overwrites ⟨[("alice", 0)], [("alice", 1)], 2⟩
      "alice" "bob" (by decide) (by decide)⟩

end Keys

/-! ## Signing and verification (`src/key_manager.py`, `KeyManager`) -/

namespace Sig

/-- State of `key_manager.KeyManager`: the loaded private key, if any
(`self.private_key`), abstracted to a number. -/
structure KMState where
  privateKey : Option Nat
deriving DecidableEq, Repr

/-- Embeds `KeyManager.sign_message`: `if not self.private_key: return None`,
otherwise return the base64-encoded PSS signature.  The RSA signing and
base64 step is the abstract parameter `rsaSignB64`. -/
def sign_message (rsaSignB64 : Nat → String → String) (st : KMState)
    (content : String) : Option String :=
  match st.privateKey with
  | none => none
  | some k => some (rsaSignB64 k content)

/-- Counterexample to claim C9 as stated.  With no private key loaded,
`sign_message` does not fail with a `NoKeyError` (no such error exists in
the code): it returns `None`, a null value. -/
theorem sign_message_returns_none_counterexample :
    sign_message (fun _ _ => "sig") ⟨none⟩ "hello" = none := rfl

/-- Claim C9 (amended).  `sign_message` returns `None` (not an error) when
no private key is loaded, and returns the encoded signature when one is. -/
theorem sign_message_none_or_signature (rsaSignB64 : Nat → String → String)
    (st : KMState) (content : String) :
    (st.privateKey = none → sign_message rsaSignB64 st content = none)
    ∧ ∀ k, st.privateKey = some k →
        sign_message rsaSignB64 st content = some (rsaSignB64 k content) := by
  refine ⟨fun h => ?_, fun k h => ?_⟩ <;> simp [sign_message, h]

/-- Witness for `sign_message_none_or_signature` at concrete states. -/
theorem sign_message_none_or_signature_witness :
    sign_message (fun _ _ => "S") ⟨none⟩ "m" = none
    ∧ sign_message (fun _ _ => "S") ⟨some 5⟩ "m" = some "S" :=
  ⟨(sign_message_none_or_signature (fun _ _ => "S") ⟨none⟩ "m").1 rfl,
   (sign_message_none_or_signature (fun _ _ => "S") ⟨some 5⟩ "m").2 5 rfl⟩

/-- Python exception classes reachable from the two `verify_signature`
implementations: `ValueError` (subsuming `binascii.Error` from
`b64decode`, the bad-PEM failure of `load_pem_public_key`, and the
`bytes.fromhex` failure), `InvalidSignature` from `public_key.verify`,
`UnsupportedAlgorithm` from `load_pem_public_key` on a valid PEM holding
an unsupported key type, `TypeError` from calling `.verify` with the
RSA/PSS argument list on a successfully loaded non-RSA key, and
`UnboundLocalError` from the `finally` block of the `git_manager`
variant.  Only the first two are inside the
`except (InvalidSignature, ValueError)` tuple. -/
inductive PyErr where
  | valueError
  | invalidSignature
  | unsupportedAlgorithm
  | typeError
  | unboundLocalError
deriving DecidableEq, Repr

/-- Result of `load_pem_public_key`: a key object whose class may or may not
be RSA (`ok isRsa k` — a valid Ed25519/EC/DSA PEM loads successfully but
is not an RSA key), a `ValueError` on undecodable PEM, or an
`UnsupportedAlgorithm` error on a valid PEM with an unsupported key
type. -/
inductive LoadResult where
  | ok (isRsa : Bool) (k : Nat)
  | valueError
  | unsupportedAlgorithm
deriving DecidableEq, Repr

/-- The body of the `try:` block of `key_manager.KeyManager.verify_signature`.
The parameters model the cryptography library: `loadPemKey` is
`load_pem_public_key`; `b64decode` raises `binascii.Error ⊆ ValueError`
on bad input (modelled by `none`); `rsaVerifyOk` is the boolean outcome
of RSA `public_key.verify`, which raises `InvalidSignature` on mismatch —
but calling `.verify(sig, data, padding, alg)` on a non-RSA key object
raises `TypeError` instead.  An empty or absent `public_key_pem` is
falsy, so the locally loaded key `selfKey` is used (always an RSA key:
the constructor generated or loaded it itself). -/
def verify_body (loadPemKey : String → LoadResult)
    (b64decode : String → Option (List Nat))
    (rsaVerifyOk : Nat → List Nat → String → Bool) (selfKey : Nat)
    (content sigText : String) (publicKeyPem : Option String) : Except PyErr Bool :=
  match (match publicKeyPem with
         | some p =>
           if p = "" then Except.ok (true, selfKey)
           else match loadPemKey p with
                | LoadResult.ok isRsa k => Except.ok (isRsa, k)
                | LoadResult.valueError => Except.error PyErr.valueError
                | LoadResult.unsupportedAlgorithm => Except.error PyErr.unsupportedAlgorithm
         | none => Except.ok (true, selfKey) : Except PyErr (Bool × Nat)) with
  | Except.error e => Except.error e
  | Except.ok (isRsa, pub) =>
    match b64decode sigText with
    | none => Except.error PyErr.valueError
    | some sigBytes =>
      if isRsa then
        if rsaVerifyOk pub sigBytes content then Except.ok true
        else Except.error PyErr.invalidSignature
      else Except.error PyErr.typeError

/-- The `except (InvalidSignature, ValueError): return False` handler: those
two exception classes become the return value `False`; any other exception
class propagates. -/
def catchVerifyErrors (x : Except PyErr Bool) : Except PyErr Bool :=
  match x with
  | Except.ok b => Except.ok b
  | Except.error PyErr.valueError => Except.ok false
  | Except.error PyErr.invalidSignature => Except.ok false
  | Except.error e => Except.error e

/-- Embeds `key_manager.KeyManager.verify_signature`: the `try:` body guarded
by the `except (InvalidSignature, ValueError)` handler. -/
def verify_signature (loadPemKey : String → LoadResult)
    (b64decode : String → Option (List Nat))
    (rsaVerifyOk : Nat → List Nat → String → Bool) (selfKey : Nat)
    (content sigText : String) (publicKeyPem : Option String) : Except PyErr Bool :=
  catchVerifyErrors
    (verify_body loadPemKey b64decode rsaVerifyOk selfKey content sigText publicKeyPem)

/-- Hex digit test of `bytes.fromhex`. -/
def isHexDigitC (c : Char) : Bool :=
  c.isDigit || ('a' ≤ c && c ≤ 'f') || ('A' ≤ c && c ≤ 'F')

def hexVal (c : Char) : Nat :=
  if c.isDigit then c.toNat - 48
  else if 'a' ≤ c then c.toNat - 87
  else c.toNat - 55

/-- Python `bytes.fromhex`: pairs of hex digits, with spaces allowed between
pairs; `none` models the `ValueError` on anything else. -/
def hexPairs? : List Char → Option (List Nat)
  | [] => some []
  | ' ' :: rest => hexPairs? rest
  | a :: b :: rest =>
    if isHexDigitC a && isHexDigitC b then
      (hexPairs? rest).map (fun l => (16 * hexVal a + hexVal b) :: l)
    else none
  | _ => none

/-- Embeds `git_manager.KeyManager.verify_signature` (lines 37-68), the
claim's second cited implementation.  On a well-formed hex signature the
body writes the signature and public key to temporary files, runs
`openssl dgst -verify` (its boolean outcome is the abstract
`opensslVerifyOk`; `check=True` is not set, so the run itself raises
nothing), and the `finally` block removes both files again — so the
directory is restored and a boolean is returned.  On a malformed hex
signature, `bytes.fromhex` raises `ValueError` before `pub_path` is ever
assigned; the `except` clause prepares to return `False`, but the
`finally` block then evaluates `pub_path.exists()` on the unassigned
local and raises `UnboundLocalError`, which replaces the return value and
escapes to the caller. -/
def gm_verify_signature (opensslVerifyOk : List Nat → String → String → Bool)
    (message sigHex publicKeyPem : String) : Except PyErr Bool :=
  match hexPairs? sigHex.data with
  | none => Except.error PyErr.unboundLocalError
  | some sigBytes => Except.ok (opensslVerifyOk sigBytes message publicKeyPem)

/-- Counterexample to claim C6 as stated.  Verification can raise: feeding
`key_manager.KeyManager.verify_signature` a PEM that loads as a valid
non-RSA key (here `loadPemKey` returns a successfully loaded Ed25519-style
key, `isRsa = false`) makes `.verify` raise a `TypeError` that the
`except (InvalidSignature, ValueError)` clause does not catch; and feeding
`git_manager.KeyManager.verify_signature` the malformed hex signature
`"zz"` raises `UnboundLocalError` from its `finally` block instead of
returning `False`. -/
theorem verify_signature_raises_counterexample :
    verify_signature (fun _ => LoadResult.ok false 0) (fun _ => some [])
        (fun _ _ _ => true) 0 "msg" "sig" (some "ed25519 pem")
      = Except.error PyErr.typeError
    ∧ gm_verify_signature (fun _ _ _ => false) "msg" "zz" "pem"
      = Except.error PyErr.unboundLocalError :=
  ⟨rfl, rfl⟩

/-- Claim C6 (amended).  Verification returns a boolean and never raises on
the failure classes its handler actually covers: for
`key_manager.KeyManager.verify_signature`, whenever the supplied key
material either fails to load (`ValueError`) or loads as an RSA key, the
result is `Except.ok` for every content and signature — malformed base64,
bad PEM and signature mismatch all become `False`; and
`git_manager.KeyManager.verify_signature` returns a boolean whenever the
hex signature is well-formed.  (Outside this envelope the program raises:
see the counterexample.  Determinism holds as the embeddings are pure
functions; the `git_manager` variant transiently writes two temporary
files, which its `finally` block removes again on the non-raising
paths.) -/
theorem verify_signature_false_on_caught_errors :
    (∀ (loadPemKey : String → LoadResult) (b64decode : String → Option (List Nat))
       (rsaVerifyOk : Nat → List Nat → String → Bool) (selfKey : Nat)
       (content sigText : String) (publicKeyPem : Option String),
       (∀ p, publicKeyPem = some p → ¬ p = "" →
          loadPemKey p = LoadResult.valueError ∨ ∃ k, loadPemKey p = LoadResult.ok true k) →
       ∃ b : Bool, verify_signature loadPemKey b64decode rsaVerifyOk selfKey
           content sigText publicKeyPem = Except.ok b)
    ∧ ∀ (opensslVerifyOk : List Nat → String → String → Bool)
        (message sigHex publicKeyPem : String),
        (hexPairs? sigHex.data).isSome = true →
        ∃ b : Bool, gm_verify_signature opensslVerifyOk message sigHex publicKeyPem
          = Except.ok b := by
  constructor
  · intro loadPemKey b64decode rsaVerifyOk selfKey content sigText publicKeyPem hkey
    unfold verify_signature catchVerifyErrors verify_body
    rcases publicKeyPem with _ | p
    · cases b64decode sigText with
      | none => exact ⟨false, rfl⟩
      | some sb =>
        cases h : rsaVerifyOk selfKey sb content with
        | false => exact ⟨false, by simp [h]⟩
        | true => exact ⟨true, by simp [h]⟩
    · by_cases hp : p = ""
      · cases b64decode sigText with
        | none => exact ⟨false, by simp [hp]⟩
        | some sb =>
          cases h : rsaVerifyOk selfKey sb content with
          | false => exact ⟨false, by simp [hp, h]⟩
          | true => exact ⟨true, by simp [hp, h]⟩
      · rcases hkey p rfl hp with hv | ⟨k, hk⟩
        · exact ⟨false, by simp [hp, hv]⟩
        · cases b64decode sigText with
          | none => exact ⟨false, by simp [hp, hk]⟩
          | some sb =>
            cases h : rsaVerifyOk k sb content with
            | false => exact ⟨false, by simp [hp, hk, h]⟩
            | true => exact ⟨true, by simp [hp, hk, h]⟩
  · intro opensslVerifyOk message sigHex publicKeyPem hs
    unfold gm_verify_signature
    cases hh : hexPairs? sigHex.data with
    | none =>
      rw [hh] at hs
      simp at hs
    | some sb => exact ⟨opensslVerifyOk sb message publicKeyPem, rfl⟩

/-- Witness for `verify_signature_false_on_caught_errors` at concrete
values: an RSA-loading PEM with an undecodable base64 signature, and a
well-formed hex signature for the subprocess variant. -/
theorem verify_signature_false_on_caught_errors_witness :
    (∃ b : Bool, verify_signature (fun _ => LoadResult.ok true 7) (fun _ => none)
        (fun _ _ _ => true) 0 "m" "%%%" (some "rsa pem") = Except.ok b)
    ∧ ∃ b : Bool, gm_verify_signature (fun _ _ _ => true) "m" "00ff" "pem"
        = Except.ok b :=
  ⟨verify_signature_false_on_caught_errors.1 (fun _ => LoadResult.ok true 7)
      (fun _ => none) (fun _ _ _ => true) 0 "m" "%%%" (some "rsa pem")
      (fun _ _ _ => Or.inr ⟨7, rfl⟩),
   verify_signature_false_on_caught_errors.2 (fun _ _ _ => true) "m" "00ff" "pem"
      (by decide)⟩

end Sig

/-! ## Message codec (`src/git_manager.py`, `GitManager.format_message` and
`GitManager.parse_message`) -/

namespace Codec

/-- Python's `str.strip()` default whitespace (the ASCII part, which is all
the message format ever produces). -/
def isPySpace (c : Char) : Bool :=
  c == ' ' || c == '\t' || c == '\n' || c == '\r' || c == '\x0b' || c == '\x0c'

/-- Python `str.lstrip()` on a character list. -/
def pyLstripL (l : List Char) : List Char := l.dropWhile isPySpace

/-- Python `str.rstrip()` on a character list. -/
def pyRstripL (l : List Char) : List Char := (l.reverse.dropWhile isPySpace).reverse

/-- Python `str.strip()` on a character list. -/
def pyStripL (l : List Char) : List Char := pyLstripL (pyRstripL l)

/-- Python `str.strip()`. -/
def pyStrip (s : String) : String := String.mk (pyStripL s.data)

/-- Python `str.rstrip()`. -/
def pyRstrip (s : String) : String := String.mk (pyRstripL s.data)

/-- Python `s.split(sep, 1)`: split at the first occurrence of `sep`,
returning the part before it and everything after it, or `none` when `sep`
does not occur (in which case Python returns the one-element list and the
callers' `len(parts) != 2` branch fires). -/
def splitFirst (sep : List Char) : List Char → Option (List Char × List Char)
  | [] => none
  | c :: rest =>
    if sep.isPrefixOf (c :: rest) then some ([], (c :: rest).drop sep.length)
    else
      match splitFirst sep rest with
      | some (a, b) => some (c :: a, b)
      | none => none

/-- Python `s.split(ch)` for a single-character separator: every occurrence
splits, empty parts included. -/
def splitChar (ch : Char) : List Char → List (List Char)
  | [] => [[]]
  | c :: rest =>
    match splitChar ch rest with
    | [] => [[]]
    | h :: t => if c = ch then [] :: h :: t else (c :: h) :: t

/-- The metadata dictionary built by `parse_message`: insertion-ordered keys
with `None`-able values, as in the Python dict literal of the legacy
branch. -/
abbrev Metadata : Type := List (String × Option String)

/-- Python `dict` insertion: overwrite in place if the key is present, else
append. -/
def mdInsert (k : String) (v : Option String) (md : Metadata) : Metadata :=
  match alook k md with
  | some _ => md.map (fun p => if p.1 = k then (k, v) else p)
  | none => md ++ [(k, v)]

/-- The footer delimiter `'\n-- \n'` that `parse_message` splits on. -/
def delimL : List Char := ['\n', '-', '-', ' ', '\n']

/-- One iteration of the footer loop of `parse_message`:
`if ': ' in line: key, value = line.split(': ', 1); metadata[key] = value`. -/
def parseFooterLine (md : Metadata) (line : List Char) : Metadata :=
  match splitFirst [':', ' '] line with
  | some (k, v) => mdInsert (String.mk k) (some (String.mk v)) md
  | none => md

/-- Python `chr(10).join(...)` over the footer lines. -/
def joinNl : List String → String
  | [] => ""
  | [x] => x
  | x :: rest => x ++ "\n" ++ joinNl rest

/-- The footer lines of `GitManager.format_message`, in the fixed order
Author, Date, Public-Key, then the optional Parent-Message, Signature and
Type lines. -/
def footersOf (author date : String) (parentId sig msgType : Option String) :
    List String :=
  ["Author: " ++ author, "Date: " ++ date,
   "Public-Key: identity/public_keys/" ++ author ++ ".pub"]
  ++ (match parentId with | some p => ["Parent-Message: " ++ p] | none => [])
  ++ (match sig with | some sg => ["Signature: " ++ sg] | none => [])
  ++ (match msgType with | some t => ["Type: " ++ t] | none => [])

/-- Embeds `GitManager.format_message`:
`f"{message_content.rstrip()}\n\n-- \n{chr(10).join(footers)}"`. -/
def format_message (content author date : String)
    (parentId sig msgType : Option String) : String :=
  pyRstrip content ++ "\n\n-- \n" ++ joinNl (footersOf author date parentId sig msgType)

/-- The metadata dictionary `parse_message` returns when the delimiter is
absent: `{'Author': 'anonymous', 'Date': None, 'Public-Key': None}`. -/
def defaultMd : Metadata :=
  [("Author", some "anonymous"), ("Date", none), ("Public-Key", none)]

/-- Embeds `GitManager.parse_message`: split on the first `'\n-- \n'`; with
no delimiter, return the default metadata and the stripped text; otherwise
strip the first part as the message and run the footer loop over the
newline-separated lines of the stripped second part. -/
def parse_message (s : String) : Metadata × String :=
  match splitFirst delimL s.data with
  | none => (defaultMd, String.mk (pyStripL s.data))
  | some (a, b) =>
    ((splitChar '\n' (pyStripL b)).foldl parseFooterLine [], String.mk (pyStripL a))

/-! ### Splitting lemmas -/

lemma splitFirst_cons_pos {sep : List Char} {c : Char} {rest : List Char}
    (hpre : sep.isPrefixOf (c :: rest) = true) :
    splitFirst sep (c :: rest) = some ([], (c :: rest).drop sep.length) := by
  simp only [splitFirst]
  rw [if_pos hpre]

lemma splitFirst_cons_neg {sep : List Char} {c : Char} {rest : List Char}
    (hpre : ¬ sep.isPrefixOf (c :: rest) = true) :
    splitFirst sep (c :: rest)
      = (match splitFirst sep rest with
         | some (a, b) => some (c :: a, b)
         | none => none) := by
  simp only [splitFirst]
  rw [if_neg hpre]

lemma splitFirst_append (sep ys : List Char) (hsep : sep ≠ []) :
    ∀ xs, (∀ t, t ≠ [] → t <:+ xs → ¬ sep.isPrefixOf (t ++ (sep ++ ys)) = true) →
      splitFirst sep (xs ++ (sep ++ ys)) = some (xs, ys) := by
  intro xs
  induction xs with
  | nil =>
    intro _
    cases sep with
    | nil => exact absurd rfl hsep
    | cons c rest =>
      have hsh : (c :: rest) ++ ys = c :: (rest ++ ys) := rfl
      rw [List.nil_append, hsh]
      rw [splitFirst_cons_pos
        ( List.isPrefixOf_iff_prefix.mpr (hsh ▸ List.prefix_append (c :: rest) ys))]
      simp [List.drop_left' (rfl : (c :: rest).length = (c :: rest).length)]
  | cons x xs ih =>
    intro h
    have hx : ¬ sep.isPrefixOf ((x :: xs) ++ (sep ++ ys)) = true :=
      h (x :: xs) (List.cons_ne_nil x xs) (List.suffix_refl _)
    have h' : ∀ t, t ≠ [] → t <:+ xs → ¬ sep.isPrefixOf (t ++ (sep ++ ys)) = true :=
      fun t ht hsuf => h t ht (hsuf.trans (List.suffix_cons x xs))
    rw [List.cons_append]
    rw [splitFirst_cons_neg (by exact hx)]
    rw [ih h']

lemma splitFirst_none_iff (sep : List Char) (hsep : sep ≠ []) :
    ∀ l, splitFirst sep l = none ↔ ∀ a b, l ≠ a ++ (sep ++ b) := by
  intro l
  induction l with
  | nil =>
    simp only [splitFirst, true_iff]
    intro a b hab
    cases a with
    | cons x xs => simp at hab
    | nil =>
      cases sep with
      | nil => exact hsep rfl
      | cons c rest => simp at hab
  | cons c rest ih =>
    by_cases hpre : sep.isPrefixOf (c :: rest) = true
    · rw [splitFirst_cons_pos hpre]
      refine iff_of_false (by simp) ?_
      intro hno
      obtain ⟨tail, htail⟩ := List.isPrefixOf_iff_prefix.mp hpre
      exact hno [] tail (by simpa using htail.symm)
    · rw [splitFirst_cons_neg hpre]
      have step : (match splitFirst sep rest with
          | some (a, b) => some (c :: a, b)
          | none => none) = none ↔ splitFirst sep rest = none := by
        cases hs : splitFirst sep rest with
        | none => simp
        | some p => cases p with | mk a b => simp
      rw [step, ih]
      constructor
      · intro hno a b hab
        cases a with
        | nil =>
          apply hpre
          rw [List.nil_append] at hab
          exact List.isPrefixOf_iff_prefix.mpr ⟨b, by rw [hab]⟩
        | cons a0 a' =>
          simp only [List.cons_append, List.cons.injEq] at hab
          exact hno a' b hab.2
      · intro hno a b hab
        exact hno (c :: a) b (by simp [hab])

lemma splitChar_ne_nil (ch : Char) : ∀ l, splitChar ch l ≠ [] := by
  intro l
  cases l with
  | nil => simp [splitChar]
  | cons c rest =>
    simp only [splitChar]
    cases hs : splitChar ch rest with
    | nil => simp
    | cons h t =>
      by_cases hc : c = ch <;> simp [hc]

lemma splitChar_of_not_mem {ch : Char} : ∀ {x : List Char}, ch ∉ x →
    splitChar ch x = [x] := by
  intro x
  induction x with
  | nil => intro _; rfl
  | cons c rest ih =>
    intro hx
    have hc : ¬ c = ch := fun hc => hx (hc ▸ List.mem_cons_self c rest)
    have hrest : ch ∉ rest := fun hm => hx (List.mem_cons_of_mem c hm)
    simp only [splitChar, ih hrest]
    simp [hc]

lemma splitChar_append {ch : Char} {x : List Char} (y : List Char) (hx : ch ∉ x) :
    splitChar ch (x ++ ch :: y) = x :: splitChar ch y := by
  induction x with
  | nil =>
    simp only [List.nil_append, splitChar]
    cases hs : splitChar ch y with
    | nil => exact absurd hs (splitChar_ne_nil ch y)
    | cons h t => simp
  | cons c x' ih =>
    have hc : ¬ c = ch := fun hc => hx (hc ▸ List.mem_cons_self c x')
    have hx' : ch ∉ x' := fun hm => hx (List.mem_cons_of_mem c hm)
    simp only [List.cons_append, splitChar, List.append_eq]
    rw [ih hx']
    simp [hc]

/-! ### Strip lemmas -/

lemma mk_data (s : String) : String.mk s.data = s := rfl

lemma dropWhile_length_le (p : Char → Bool) (l : List Char) :
    (l.dropWhile p).length ≤ l.length :=
  (List.dropWhile_suffix p).sublist.length_le

lemma pyRstripL_length_le (l : List Char) : (pyRstripL l).length ≤ l.length := by
  unfold pyRstripL
  rw [List.length_reverse]
  exact (dropWhile_length_le _ _).trans (by rw [List.length_reverse])

lemma pyLstripL_length_le (l : List Char) : (pyLstripL l).length ≤ l.length :=
  dropWhile_length_le _ _

lemma pyRstripL_eq_self_of_strip {l : List Char} (h : pyStripL l = l) :
    pyRstripL l = l := by
  have hlen : l.length ≤ (pyRstripL l).length := by
    conv_lhs => rw [← h]
    exact pyLstripL_length_le _
  have hsuffix : l.reverse.dropWhile isPySpace <:+ l.reverse := List.dropWhile_suffix _
  have hpre : (l.reverse.dropWhile isPySpace).reverse <+: l.reverse.reverse :=
    List.reverse_prefix.mpr hsuffix
  rw [List.reverse_reverse] at hpre
  exact List.IsPrefix.eq_of_length_le hpre (by simpa [pyRstripL] using hlen)

lemma pyLstripL_eq_self_of_strip {l : List Char} (h : pyStripL l = l) :
    pyLstripL l = l := by
  have hr := pyRstripL_eq_self_of_strip h
  calc pyLstripL l = pyLstripL (pyRstripL l) := by rw [hr]
    _ = l := h

lemma head_not_space_of_lstrip {c : Char} {rest : List Char}
    (h : pyLstripL (c :: rest) = c :: rest) : isPySpace c = false := by
  by_cases hc : isPySpace c = true
  · exfalso
    have : pyLstripL (c :: rest) = rest.dropWhile isPySpace := by
      simp [pyLstripL, List.dropWhile_cons, hc]
    rw [this] at h
    have := congrArg List.length h
    have hle := dropWhile_length_le isPySpace rest
    simp only [List.length_cons] at this
    omega
  · exact Bool.not_eq_true _ ▸ Bool.eq_false_iff.mpr hc

lemma not_rstrip_concat_space (init : List Char) (c : Char)
    (hc : isPySpace c = true) : pyRstripL (init ++ [c]) ≠ init ++ [c] := by
  intro h
  have hrev : (init ++ [c]).reverse = c :: init.reverse := by simp
  have hdrop : (init ++ [c]).reverse.dropWhile isPySpace
      = init.reverse.dropWhile isPySpace := by
    rw [hrev]
    simp [List.dropWhile_cons, hc]
  have := congrArg List.length h
  rw [pyRstripL, hdrop] at this
  have hle := dropWhile_length_le isPySpace init.reverse
  simp only [List.length_reverse, List.length_append, List.length_singleton] at this hle
  omega

lemma pyRstripL_append_of {m : List Char} (l : List Char)
    (hm : pyRstripL m = m) (hmne : m ≠ []) : pyRstripL (l ++ m) = l ++ m := by
  have hrevne : m.reverse ≠ [] := fun hr => hmne (by simpa using congrArg List.reverse hr)
  cases hrev : m.reverse with
  | nil => exact absurd hrev hrevne
  | cons c r =>
    have hcne : isPySpace c = false := by
      by_cases hc : isPySpace c = true
      · exfalso
        have hdr : m.reverse.dropWhile isPySpace = r.dropWhile isPySpace := by
          rw [hrev]; simp [List.dropWhile_cons, hc]
        have := congrArg List.length hm
        rw [pyRstripL, hdr] at this
        have hle := dropWhile_length_le isPySpace r
        have hlenm : m.length = r.length + 1 := by
          rw [← List.length_reverse m, hrev]; simp
        simp only [List.length_reverse] at this
        omega
      · exact Bool.eq_false_iff.mpr hc
    unfold pyRstripL
    rw [List.reverse_append, hrev, List.cons_append]
    rw [List.dropWhile_cons_of_neg (by simp [hcne])]
    rw [← List.cons_append, ← hrev, ← List.reverse_append]
    exact List.reverse_reverse _

lemma pyLstripL_append_of {l : List Char} (m : List Char)
    (hl : pyLstripL l = l) (hlne : l ≠ []) : pyLstripL (l ++ m) = l ++ m := by
  cases l with
  | nil => exact absurd rfl hlne
  | cons c rest =>
    have hc := head_not_space_of_lstrip hl
    simp only [List.cons_append, pyLstripL]
    rw [List.dropWhile_cons_of_neg (by simp [hc])]

lemma pyStripL_eq_self_of {l : List Char} (h1 : pyLstripL l = l)
    (h2 : pyRstripL l = l) : pyStripL l = l := by
  rw [pyStripL, h2, h1]

lemma pyStripL_append_newline {l : List Char} (h : pyStripL l = l) :
    pyStripL (l ++ ['\n']) = l := by
  have hr := pyRstripL_eq_self_of_strip h
  have hdw : l.reverse.dropWhile isPySpace = l.reverse := by
    have := congrArg List.reverse hr
    rw [pyRstripL, List.reverse_reverse] at this
    exact this
  have hr2 : pyRstripL (l ++ ['\n']) = l := by
    unfold pyRstripL
    rw [List.reverse_append]
    simp only [List.reverse_singleton, List.cons_append, List.nil_append]
    rw [List.dropWhile_cons_of_pos (by simp [isPySpace])]
    rw [hdw, List.reverse_reverse]
  rw [pyStripL, hr2]
  exact pyLstripL_eq_self_of_strip h

/-! ### Locating the first delimiter in an encoded message -/

lemma suffix_concat {t l : List Char} {x : Char} (h : t <:+ l ++ [x]) :
    t = [] ∨ ∃ t', t = t' ++ [x] ∧ t' <:+ l := by
  rcases List.eq_nil_or_concat' t with rfl | ⟨t', a, rfl⟩
  · exact Or.inl rfl
  · obtain ⟨s, hs⟩ := h
    have hs' : (s ++ t') ++ [a] = l ++ [x] := by simpa [List.append_assoc] using hs
    have hrev := congrArg List.reverse hs'
    simp only [List.reverse_append, List.reverse_singleton, List.singleton_append,
      List.cons.injEq] at hrev
    obtain ⟨rfl, hrest⟩ := hrev
    refine Or.inr ⟨t', rfl, s, ?_⟩
    have := congrArg List.reverse hrest
    simpa using this

lemma parseFooterLine_key (md : Metadata) (keyPart valPart : List Char)
    (hk : (':' : Char) ∉ keyPart) :
    parseFooterLine md (keyPart ++ ([':', ' '] ++ valPart))
      = mdInsert (String.mk keyPart) (some (String.mk valPart)) md := by
  have hno : ∀ t, t ≠ [] → t <:+ keyPart →
      ¬ [':', ' '].isPrefixOf (t ++ ([':', ' '] ++ valPart)) = true := by
    intro t ht hsuf hpre
    cases t with
    | nil => exact ht rfl
    | cons c t' =>
      have hc : (':' : Char) = c := by
        simp only [List.cons_append, List.isPrefixOf, Bool.and_eq_true, beq_iff_eq] at hpre
        exact hpre.1
      exact hk (hc ▸ hsuf.subset (List.mem_cons_self c t'))
  unfold parseFooterLine
  rw [splitFirst_append [':', ' '] valPart (by simp) keyPart hno]

lemma no_early_delim (content F : List Char)
    (hstrip : pyStripL content = content)
    (hnodelim : splitFirst delimL content = none) :
    ∀ t, t ≠ [] → t <:+ (content ++ ['\n']) →
      ¬ delimL.isPrefixOf (t ++ (delimL ++ F)) = true := by
  intro t ht hsuf hpre
  have hocc : ∀ a b, content ≠ a ++ (delimL ++ b) :=
    (splitFirst_none_iff delimL (by simp [delimL]) content).mp hnodelim
  rcases suffix_concat hsuf with rfl | ⟨t', rfl, ht'⟩
  · exact ht rfl
  · cases t' with
    | nil => simp [delimL, List.isPrefixOf] at hpre
    | cons a r1 =>
      cases r1 with
      | nil => simp [delimL, List.isPrefixOf] at hpre
      | cons b r2 =>
        cases r2 with
        | nil => simp [delimL, List.isPrefixOf] at hpre
        | cons c r3 =>
          cases r3 with
          | nil => simp [delimL, List.isPrefixOf] at hpre
          | cons d r4 =>
            cases r4 with
            | nil =>
              simp only [delimL, List.cons_append, List.nil_append, List.append_assoc,
                List.isPrefixOf, Bool.and_eq_true, beq_iff_eq] at hpre
              obtain ⟨ha, hb, hc2, hd, -⟩ := hpre
              obtain ⟨init, hinit⟩ := ht'
              apply not_rstrip_concat_space (init ++ [a, b, c]) d
                (by rw [← hd]; rfl)
              have hre : (init ++ [a, b, c]) ++ [d] = init ++ [a, b, c, d] := by simp
              rw [hre, hinit]
              exact pyRstripL_eq_self_of_strip hstrip
            | cons e r5 =>
              simp only [delimL, List.cons_append, List.nil_append, List.append_assoc,
                List.isPrefixOf, Bool.and_eq_true, beq_iff_eq] at hpre
              obtain ⟨ha, hb, hc2, hd, he, -⟩ := hpre
              obtain ⟨init, hinit⟩ := ht'
              apply hocc init r5
              rw [← hinit]
              subst ha hb hc2 hd he
              simp [delimL]

/-! ### Claim theorems for the codec -/

/-- Counterexample to claim C8 as stated.  On input `" hi "`, which contains
no footer delimiter, `parse_message` does not return the entire text with
an empty metadata map: it returns the default metadata
`{'Author': 'anonymous', 'Date': None, 'Public-Key': None}` (non-empty)
and the text stripped of surrounding whitespace (`"hi"`, not `" hi "`). -/
theorem parse_message_no_delim_counterexample :
    parse_message " hi " = (defaultMd, "hi")
    ∧ parse_message " hi " ≠ (([] : Metadata), " hi ") := by
  constructor
  · decide
  · decide

/-- Claim C8 (amended).  For every input text with no occurrence of the
footer delimiter `'\n-- \n'`, `parse_message` returns the text stripped of
leading and trailing whitespace as content, together with the fixed
default metadata map `{'Author': 'anonymous', 'Date': None,
'Public-Key': None}` (the backward-compatible plain-content case). -/
theorem parse_message_no_delim (s : String)
    (h : splitFirst delimL s.data = none) :
    parse_message s = (defaultMd, pyStrip s) := by
  simp only [parse_message, h]
  rfl

/-- Witness for `parse_message_no_delim` at a concrete input. -/
theorem parse_message_no_delim_witness :
    splitFirst delimL ("hello" : String).data = none
    ∧ parse_message "hello" = (defaultMd, pyStrip "hello") :=
  ⟨by decide, parse_message_no_delim "hello" (by decide)⟩

/-- Claim C5.  Round-trip fidelity of the message codec: for every valid
content string (stripped of surrounding whitespace and containing no
footer delimiter), author and timestamp (each newline-free),
`parse_message (format_message content author ts)` recovers exactly the
original content together with a metadata map binding `Author` to the
author, `Date` to the timestamp, and `Public-Key` to the author's public
key path. -/
theorem parse_format_roundtrip (content author date : String)
    (hstrip : pyStrip content = content)
    (hnodelim : splitFirst delimL content.data = none)
    (hauthor : ('\n' : Char) ∉ author.data)
    (hdate : ('\n' : Char) ∉ date.data) :
    parse_message (format_message content author date none none none)
      = ([("Author", some author), ("Date", some date),
          ("Public-Key", some ("identity/public_keys/" ++ author ++ ".pub"))],
         content) := by
  have hstripL : pyStripL content.data = content.data := congrArg String.data hstrip
  have hnl : ("\n" : String).data = ['\n'] := rfl
  have hfoot : footersOf author date none none none
      = ["Author: " ++ author, "Date: " ++ date,
         "Public-Key: identity/public_keys/" ++ author ++ ".pub"] := by
    simp [footersOf]
  have hjoin : joinNl (footersOf author date none none none)
      = ("Author: " ++ author) ++ "\n"
          ++ (("Date: " ++ date) ++ "\n"
          ++ ("Public-Key: identity/public_keys/" ++ author ++ ".pub")) := by
    rw [hfoot]
    rfl
  have hformat : (format_message content author date none none none).data
      = (content.data ++ ['\n'])
          ++ (delimL ++ (joinNl (footersOf author date none none none)).data) := by
    unfold format_message
    have hr : pyRstrip content = content := by
      unfold pyRstrip
      rw [pyRstripL_eq_self_of_strip hstripL]
    rw [hr]
    have hsep : ("\n\n-- \n" : String).data = '\n' :: delimL := rfl
    simp [String.data_append, hsep, delimL]
  have hsplit : splitFirst delimL (format_message content author date none none none).data
      = some (content.data ++ ['\n'], (joinNl (footersOf author date none none none)).data) := by
    rw [hformat]
    exact splitFirst_append delimL _ (by simp [delimL]) (content.data ++ ['\n'])
      (no_early_delim content.data _ hstripL hnodelim)
  have hmsg : String.mk (pyStripL (content.data ++ ['\n'])) = content := by
    rw [pyStripL_append_newline hstripL]
  have hF1 : (joinNl (footersOf author date none none none)).data
      = "Author: ".data ++ (author.data ++ ('\n' :: ("Date: ".data ++ (date.data
          ++ ('\n' :: ("Public-Key: identity/public_keys/".data
          ++ (author.data ++ ".pub".data))))))) := by
    rw [hjoin]
    simp [String.data_append, hnl, List.append_assoc,
      show ("Author: " : String).data = "Author: ".data from rfl]
  have hF2 : (joinNl (footersOf author date none none none)).data
      = ("Author: ".data ++ (author.data ++ ('\n' :: ("Date: ".data ++ (date.data
          ++ ('\n' :: ("Public-Key: identity/public_keys/".data
          ++ author.data))))))) ++ ".pub".data := by
    rw [hjoin]
    simp [String.data_append, hnl, List.append_assoc]
  have hF3 : (joinNl (footersOf author date none none none)).data
      = ("Author: ".data ++ author.data)
          ++ '\n' :: (("Date: ".data ++ date.data)
          ++ '\n' :: ("Public-Key: identity/public_keys/".data
              ++ (author.data ++ ".pub".data))) := by
    rw [hjoin]
    simp [String.data_append, hnl, List.append_assoc]
  have hFfix : pyStripL (joinNl (footersOf author date none none none)).data
      = (joinNl (footersOf author date none none none)).data := by
    apply pyStripL_eq_self_of
    · rw [hF1]
      exact pyLstripL_append_of _ (by decide) (by decide)
    · rw [hF2]
      exact pyRstripL_append_of _ (by decide) (by decide)
  have hnA : ('\n' : Char) ∉ "Author: ".data ++ author.data := by
    simp only [List.mem_append]
    rintro (h | h)
    · revert h; decide
    · exact hauthor h
  have hnD : ('\n' : Char) ∉ "Date: ".data ++ date.data := by
    simp only [List.mem_append]
    rintro (h | h)
    · revert h; decide
    · exact hdate h
  have hnP : ('\n' : Char) ∉ "Public-Key: identity/public_keys/".data
      ++ (author.data ++ ".pub".data) := by
    simp only [List.mem_append]
    rintro (h | h | h)
    · revert h; decide
    · exact hauthor h
    · revert h; decide
  have hlines : splitChar '\n' (joinNl (footersOf author date none none none)).data
      = ["Author: ".data ++ author.data, "Date: ".data ++ date.data,
         "Public-Key: identity/public_keys/".data ++ (author.data ++ ".pub".data)] := by
    rw [hF3]
    rw [splitChar_append _ hnA, splitChar_append _ hnD, splitChar_of_not_mem hnP]
  have h1 : parseFooterLine [] ("Author: ".data ++ author.data)
      = [("Author", some author)] := by
    rw [show "Author: ".data ++ author.data
        = "Author".data ++ ([':', ' '] ++ author.data) from rfl]
    rw [parseFooterLine_key _ _ _ (by decide)]
    rw [mk_data author]
    rfl
  have h2 : parseFooterLine [("Author", some author)] ("Date: ".data ++ date.data)
      = [("Author", some author), ("Date", some date)] := by
    rw [show "Date: ".data ++ date.data
        = "Date".data ++ ([':', ' '] ++ date.data) from rfl]
    rw [parseFooterLine_key _ _ _ (by decide)]
    rw [mk_data date]
    simp [mdInsert, alook]
  have h3 : parseFooterLine [("Author", some author), ("Date", some date)]
      ("Public-Key: identity/public_keys/".data ++ (author.data ++ ".pub".data))
      = [("Author", some author), ("Date", some date),
         ("Public-Key", some ("identity/public_keys/" ++ author ++ ".pub"))] := by
    rw [show "Public-Key: identity/public_keys/".data ++ (author.data ++ ".pub".data)
        = "Public-Key".data ++ ([':', ' ']
            ++ ("identity/public_keys/".data ++ (author.data ++ ".pub".data))) from rfl]
    rw [parseFooterLine_key _ _ _ (by decide)]
    have hv : String.mk ("identity/public_keys/".data ++ (author.data ++ ".pub".data))
        = "identity/public_keys/" ++ author ++ ".pub" := by
      rw [← mk_data ("identity/public_keys/" ++ author ++ ".pub")]
      congr 1
    rw [hv]
    simp [mdInsert, alook]
  unfold parse_message
  rw [hsplit]
  simp only [hFfix, hlines, List.foldl_cons, List.foldl_nil, h1]
  rw [h2, h3, hmsg]

/-- Witness for `parse_format_roundtrip` at concrete values. -/
theorem parse_format_roundtrip_witness :
    (pyStrip "hello" = "hello"
      ∧ splitFirst delimL ("hello" : String).data = none
      ∧ ('\n' : Char) ∉ ("alice" : String).data
      ∧ ('\n' : Char) ∉ ("2025-01-01T00:00:00" : String).data)
    ∧ parse_message (format_message "hello" "alice" "2025-01-01T00:00:00" none none none)
      = ([("Author", some "alice"), ("Date", some "2025-01-01T00:00:00"),
          ("Public-Key", some "identity/public_keys/alice.pub")], "hello") := by
  refine ⟨⟨by decide, by decide, by decide, by decide⟩, ?_⟩
  have := parse_format_roundtrip "hello" "alice" "2025-01-01T00:00:00"
    (by decide) (by decide) (by decide) (by decide)
  rw [this]
  rfl

end Codec

/-! ## Saving messages (`src/git_manager.py`, `GitManager.save_message`) -/

namespace Store

/-- The messages directory of `GitManager`: file name to file text. -/
structure GMState where
  messages : List (String × String)
deriving DecidableEq, Repr

/-- Embeds `GitManager.save_message` for `message_type ≠ 'username_change'`:
sign the content if requested (`signFn` models
`KeyManager.sign_message`, which always has a key for the local
identity), build the filename
`datetime.fromisoformat(date_str).strftime('%Y%m%d_%H%M%S') + '_' +
author + '.txt'`, encode via `format_message`, and write the file
(`write_text` overwrites a same-name file).  `none` models the
`ValueError` from an unparseable `date_str`.  The `username_change`
branch (which runs after the write and never rolls it back) and the
best-effort GitHub sync are outside the claims settled against this
definition. -/
def save_message (signFn : String → String) (st : GMState)
    (message_content author date_str : String) (parent_id : Option String)
    (sign : Bool) (message_type : Option String) : Option (GMState × String) :=
  match isoDatePart date_str with
  | none => none
  | some datePart =>
    let signature := if sign then some (signFn message_content) else none
    let filename := datePart ++ "_" ++ author ++ ".txt"
    let formatted := Codec.format_message message_content author date_str
        parent_id signature message_type
    some ({ messages := writeText filename formatted st.messages }, filename)

/-- Counterexample to claim C7 as stated.  A save whose content is the empty
string is not rejected: no validation happens, and a message file (whose
body is empty and whose footer carries the metadata) is written to the
messages directory. -/
theorem save_message_empty_writes_counterexample :
    save_message (fun _ => "SIG") ⟨[]⟩ "" "alice" "2025-01-01T00:00:00" none false none
      = some (⟨[("20250101_000000_alice.txt",
          "\n\n-- \nAuthor: alice\nDate: 2025-01-01T00:00:00\nPublic-Key: identity/public_keys/alice.pub")]⟩,
        "20250101_000000_alice.txt") := by
  decide

/-- Claim C7 (amended).  `save_message` performs no content validation: a
save call whose content is empty or whitespace-only proceeds exactly like
any other save, returning the timestamped filename and writing the
encoded message file into the messages directory. -/
theorem save_message_empty_content_writes (signFn : String → String) (st : GMState)
    (content author date_str : String) (parent_id : Option String) (sign : Bool)
    (message_type : Option String) (datePart : String)
    (hempty : Codec.pyStrip content = "")
    (hdate : isoDatePart date_str = some datePart) :
    ∃ st' : GMState,
      save_message signFn st content author date_str parent_id sign message_type
        = some (st', datePart ++ "_" ++ author ++ ".txt")
      ∧ alook (datePart ++ "_" ++ author ++ ".txt") st'.messages
          = some (Codec.format_message content author date_str parent_id
              (if sign then some (signFn content) else none) message_type) := by
  refine ⟨⟨writeText (datePart ++ "_" ++ author ++ ".txt")
      (Codec.format_message content author date_str parent_id
        (if sign then some (signFn content) else none) message_type) st.messages⟩,
    ?_, ?_⟩
  · simp [save_message, hdate]
  · exact alook_writeText_self _ _ _

/-- Witness for `save_message_empty_content_writes` at concrete values. -/
theorem save_message_empty_content_writes_witness :
    (Codec.pyStrip " " = "" ∧ isoDatePart "2025-01-01T00:00:00" = some "20250101_000000")
    ∧ ∃ st' : GMState,
        save_message (fun _ => "S") ⟨[]⟩ " " "bob" "2025-01-01T00:00:00" none false none
          = some (st', "20250101_000000" ++ "_" ++ "bob" ++ ".txt")
        ∧ alook ("20250101_000000" ++ "_" ++ "bob" ++ ".txt") st'.messages
            = some (Codec.format_message " " "bob" "2025-01-01T00:00:00" none none none) :=
  ⟨⟨by decide, by decide⟩,
    save_message_empty_content_writes (fun _ => "S") ⟨[]⟩ " " "bob" "2025-01-01T00:00:00"
      none false none "20250101_000000" (by decide) (by decide)⟩

end Store

/-! ## Fork merge (`src/sync_forks.py`) -/

namespace Sync

/-- A message JSON file: the three fields the deduplication reads (a missing
field and an empty one are identified, as `dict.get(key, '')` does), plus
the remaining keys of the JSON object (`source_repo` and anything else),
which travel with the file but never enter the hash. -/
structure MessageData where
  content : String
  user : String
  timestamp : String
  extra : List (String × String)
deriving DecidableEq, Repr

/-- Lower-case hexadecimal digit, as in Python's `\uXXXX` escapes. -/
def hexDigitChar (n : Nat) : Char :=
  if n < 10 then Char.ofNat (48 + n) else Char.ofNat (87 + n)

/-- A `\uXXXX` escape for a code unit. -/
def uEscape (n : Nat) : List Char :=
  ['\\', 'u', hexDigitChar ((n / 4096) % 16), hexDigitChar ((n / 256) % 16),
   hexDigitChar ((n / 16) % 16), hexDigitChar (n % 16)]

/-- Escaping of one character inside a JSON string by
`json.dumps` (default `ensure_ascii=True`): the two-character escapes,
`\uXXXX` for other control and non-ASCII characters, and surrogate pairs
beyond the basic plane. -/
def jsonEscapeChar (c : Char) : List Char :=
  if c = '"' then ['\\', '"']
  else if c = '\\' then ['\\', '\\']
  else if c = '\n' then ['\\', 'n']
  else if c = '\r' then ['\\', 'r']
  else if c = '\t' then ['\\', 't']
  else if c = '\x08' then ['\\', 'b']
  else if c = '\x0c' then ['\\', 'f']
  else if c.toNat < 32 then uEscape c.toNat
  else if c.toNat < 127 then [c]
  else if c.toNat < 65536 then uEscape c.toNat
  else uEscape (55296 + ((c.toNat - 65536) / 1024))
         ++ uEscape (56320 + ((c.toNat - 65536) % 1024))

/-- A JSON string literal: `json.dumps` of one string. -/
def jsonStr (s : String) : String :=
  "\"" ++ String.mk (s.data.map jsonEscapeChar).flatten ++ "\""

/-- Embeds `generate_message_hash`:
`json.dumps({'content': ..., 'user': ..., 'timestamp': ...}, sort_keys=True)`
followed by `sha256(...).hexdigest()`.  The SHA-256 step is modelled as the
identity on the canonical JSON string: the merge only ever compares hashes
for equality, and under the standard collision-freeness assumption the
hash is injective exactly like the JSON string itself.  The key reads only
`content`, `user` and `timestamp` — the file path, the source repository
and every other field are excluded.  With `sort_keys=True` the keys appear
in the order content, timestamp, user. -/
def generate_message_hash (m : MessageData) : String :=
  "\x7b\"content\": " ++ jsonStr m.content ++ ", \"timestamp\": " ++ jsonStr m.timestamp
    ++ ", \"user\": " ++ jsonStr m.user ++ "\x7d"

/-- Embeds `generate_message_filename`:
`YYYYMMDD_HHMMSS_<content_hash>.json`, the date part falling back to
`00000000_000000` for an unparseable timestamp.  The `[:12]` hash
truncation is dropped together with the SHA-256 abstraction (the truncated
hex digest is collision-free in the same modelling sense). -/
def generate_message_filename (m : MessageData) : String :=
  match isoDatePart m.timestamp with
  | some datePart => datePart ++ "_" ++ generate_message_hash m ++ ".json"
  | none => "00000000_000000" ++ "_" ++ generate_message_hash m ++ ".json"

/-- The canonical messages directory: file name to parsed JSON content. -/
abbrev Dir : Type := List (String × MessageData)

/-- Deleting a file (`Path.unlink`). -/
def eraseD (n : String) (d : Dir) : Dir := d.filter (fun p => decide (p.1 ≠ n))

/-- Decimal rendering of a number, as Python's `str(i)` in the f-string of
the collision loop. -/
def decDigit : Nat → Char
  | 0 => '0' | 1 => '1' | 2 => '2' | 3 => '3' | 4 => '4'
  | 5 => '5' | 6 => '6' | 7 => '7' | 8 => '8' | _ => '9'

def pyNatChars : Nat → Nat → List Char
  | 0, _ => []
  | fuel + 1, n =>
    if n < 10 then [decDigit n]
    else pyNatChars fuel (n / 10) ++ [decDigit (n % 10)]

def pyNatStr (n : Nat) : String := String.mk (pyNatChars (n + 1) n)

/-- The suffixed candidate filename of the collision loops:
`base, ext = new_filename.rsplit('.', 1); f"{base}_{i}.{ext}"`.  Generated
filenames always end in `.json`, so `rsplit('.', 1)` removes exactly that
extension (`String.dropRight 5`). -/
def suffixName (nf : String) (i : Nat) : String :=
  nf.dropRight 5 ++ "_" ++ pyNatStr i ++ ".json"

/-- The `i = 1; while new_path.exists(): ... i += 1` search for an unused
suffixed name.  The fuel `d.length + 1` suffices: among `d.length + 1`
distinct candidate names at most `d.length` can be taken. -/
def firstFreeAux (d : Dir) (nf : String) : Nat → Nat → String
  | 0, i => suffixName nf i
  | fuel + 1, i =>
    if (alook (suffixName nf i) d).isSome then firstFreeAux d nf fuel (i + 1)
    else suffixName nf i

def firstFree (d : Dir) (nf : String) : String :=
  firstFreeAux d nf (d.length + 1) 1

/-- Target selection of the copy loop (`sync_forks.py` lines 212-218): use
the generated filename when free, otherwise the first free suffixed
name. -/
def resolveTarget (d : Dir) (nf : String) : String :=
  if (alook nf d).isSome then firstFree d nf else nf

/-- `message_data['source_repo'] = repo_dir.name`. -/
def setSourceRepo (rname : String) (m : MessageData) : MessageData :=
  { m with extra := writeText "source_repo" rname m.extra }

/-- One iteration of the first loop of `copy_messages_to_main` (lines
139-174): re-read the file (skipping it, as the `except` branch does, if
an earlier iteration renamed or deleted that path), rename it to the
generated canonical filename when its name differs — deleting it instead
when the file already at that name has the same dedup hash, and falling
back to a suffixed name when that file differs — and record its hash as
seen. -/
def phase1Step (st : Dir × List String) (name : String) : Dir × List String :=
  match alook name st.1 with
  | none => st
  | some data =>
    let nf := generate_message_filename data
    let dir' :=
      if name = nf then st.1
      else
        match alook nf st.1 with
        | some existing =>
          if generate_message_hash existing = generate_message_hash data then
            eraseD name st.1
          else
            (firstFree st.1 nf, data) :: eraseD name st.1
        | none => (nf, data) :: eraseD name st.1
    (dir', st.2.insert (generate_message_hash data))

/-- The first loop of `copy_messages_to_main`: normalize the existing files
of the canonical directory (the file list is captured before the loop
starts, as `existing_files = list(...glob...)` does) and seed the seen-hash
set. -/
def phase1 (dir0 : Dir) : Dir × List String :=
  (dir0.map (·.1)).foldl phase1Step (dir0, [])

/-- One message of the copy loop (lines 190-229): skip it when its dedup
hash was already seen, otherwise tag it with its source repository, pick a
free target name and write it, recording the hash. -/
def phase2Msg (rname : String) (st : Dir × List String) (data : MessageData) :
    Dir × List String :=
  if st.2.contains (generate_message_hash data) then st
  else
    let data' := setSourceRepo rname data
    ((resolveTarget st.1 (generate_message_filename data'), data') :: st.1,
      st.2.insert (generate_message_hash data))

/-- All messages of one cloned fork, in glob order. -/
def phase2Repo (st : Dir × List String) (repo : String × List MessageData) :
    Dir × List String :=
  repo.2.foldl (phase2Msg repo.1) st

/-- Embeds `copy_messages_to_main`: normalize the canonical directory, then
copy the not-yet-seen messages of every cloned fork into it. -/
def copy_messages_to_main (dir0 : Dir) (forks : List (String × List MessageData)) :
    Dir :=
  (forks.foldl phase2Repo (phase1 dir0)).1

/-! ### Decimal suffixes are injective, so the collision loop terminates on a
free name -/

def charDigitVal (c : Char) : Nat := c.toNat - 48

def decVal (l : List Char) : Nat :=
  l.foldl (fun a c => a * 10 + charDigitVal c) 0

lemma decVal_append_digit (l : List Char) (c : Char) :
    decVal (l ++ [c]) = decVal l * 10 + charDigitVal c := by
  unfold decVal
  rw [List.foldl_append]
  rfl

lemma decDigit_val {n : Nat} (h : n < 10) : charDigitVal (decDigit n) = n := by
  interval_cases n <;> decide

lemma pyNatChars_val : ∀ fuel n, n < fuel → decVal (pyNatChars fuel n) = n := by
  intro fuel
  induction fuel with
  | zero => intro n h; omega
  | succ fuel ih =>
    intro n h
    by_cases h10 : n < 10
    · simp only [pyNatChars, if_pos h10]
      have hv : decVal [decDigit n] = charDigitVal (decDigit n) := by
        simp [decVal]
      rw [hv]
      exact decDigit_val h10
    · have hd := Nat.div_lt_self (show 0 < n by omega) (show 1 < 10 by omega)
      simp only [pyNatChars, if_neg h10]
      rw [decVal_append_digit, ih (n / 10) (by omega),
        decDigit_val (Nat.mod_lt n (by omega))]
      omega

lemma pyNatStr_inj {i j : Nat} (h : pyNatStr i = pyNatStr j) : i = j := by
  have hd : pyNatChars (i + 1) i = pyNatChars (j + 1) j := congrArg String.data h
  have hi := pyNatChars_val (i + 1) i (by omega)
  have hj := pyNatChars_val (j + 1) j (by omega)
  rw [← hi, ← hj, hd]

lemma suffixName_inj (nf : String) {i j : Nat}
    (h : suffixName nf i = suffixName nf j) : i = j := by
  unfold suffixName at h
  have hd := congrArg String.data h
  simp only [String.data_append] at hd
  have h1 := List.append_cancel_right hd
  have h2 := List.append_cancel_left h1
  have h3 := congrArg String.mk h2
  rw [Codec.mk_data, Codec.mk_data] at h3
  exact pyNatStr_inj h3

lemma alook_mem {α : Type} {k : String} :
    ∀ {l : List (String × α)}, (alook k l).isSome = true → k ∈ l.map Prod.fst := by
  intro l
  induction l with
  | nil => simp [alook]
  | cons p rest ih =>
    by_cases h : p.1 = k
    · intro _
      simp only [List.map_cons, List.mem_cons]
      exact Or.inl h.symm
    · intro hs
      rw [show alook k (p :: rest) = alook k rest from by simp [alook, h]] at hs
      simp only [List.map_cons, List.mem_cons]
      exact Or.inr (ih hs)

lemma exists_free_suffix (d : Dir) (nf : String) :
    ∃ j, 1 ≤ j ∧ j < d.length + 2 ∧ alook (suffixName nf j) d = none := by
  by_contra hno
  push_neg at hno
  have hmem : ∀ k : Fin (d.length + 1),
      suffixName nf (k + 1) ∈ (d.map Prod.fst).toFinset := by
    intro k
    rw [List.mem_toFinset]
    apply alook_mem
    have hk := k.isLt
    have := hno (k + 1) (by omega) (by omega)
    exact Option.ne_none_iff_isSome.mp this
  have hinj : Set.InjOn (fun k : Fin (d.length + 1) => suffixName nf (k + 1))
      (Finset.univ : Finset (Fin (d.length + 1))) := by
    intro a _ b _ hab
    have := suffixName_inj nf hab
    exact Fin.ext (by omega)
  have hcard := Finset.card_le_card_of_injOn _ (fun a _ => hmem a) hinj
  simp only [Finset.card_univ, Fintype.card_fin] at hcard
  have hle := List.toFinset_card_le (d.map Prod.fst)
  simp only [List.length_map] at hle
  omega

lemma firstFreeAux_free (d : Dir) (nf : String) :
    ∀ fuel i, (∃ j, i ≤ j ∧ j < i + fuel ∧ alook (suffixName nf j) d = none) →
      alook (firstFreeAux d nf fuel i) d = none := by
  intro fuel
  induction fuel with
  | zero =>
    intro i h
    obtain ⟨j, h1, h2, -⟩ := h
    omega
  | succ fuel ih =>
    intro i h
    obtain ⟨j, hij, hlt, hfree⟩ := h
    by_cases hocc : (alook (suffixName nf i) d).isSome = true
    · rw [show firstFreeAux d nf (fuel + 1) i = firstFreeAux d nf fuel (i + 1) from by
        simp [firstFreeAux, hocc]]
      apply ih
      have hj_ne : j ≠ i := by
        intro heq
        rw [← heq] at hocc
        rw [hfree] at hocc
        exact absurd hocc (by simp)
      exact ⟨j, by omega, by omega, hfree⟩
    · rw [show firstFreeAux d nf (fuel + 1) i = suffixName nf i from by
        simp [firstFreeAux, hocc]]
      exact Option.not_isSome_iff_eq_none.mp (by simpa using hocc)

lemma firstFree_free (d : Dir) (nf : String) : alook (firstFree d nf) d = none := by
  apply firstFreeAux_free
  obtain ⟨j, h1, h2, h3⟩ := exists_free_suffix d nf
  exact ⟨j, h1, by omega, h3⟩

lemma resolveTarget_free (d : Dir) (nf : String) :
    alook (resolveTarget d nf) d = none := by
  unfold resolveTarget
  by_cases h : (alook nf d).isSome = true
  · rw [if_pos h]
    exact firstFree_free d nf
  · rw [if_neg h]
    exact Option.not_isSome_iff_eq_none.mp (by simpa using h)

lemma resolveTarget_of_free {d : Dir} {nf : String} (h : alook nf d = none) :
    resolveTarget d nf = nf := by
  unfold resolveTarget
  rw [if_neg (by simp [h])]

/-! ### The copy phase never touches existing files -/

lemma alook_cons_ne {α : Type} {k t : String} {v : α} {l : List (String × α)}
    (h : t ≠ k) : alook k ((t, v) :: l) = alook k l := by
  simp [alook, h]

lemma phase2Msg_preserves (rname : String) (st : Dir × List String)
    (data : MessageData) {n : String} {dat : MessageData}
    (h : alook n st.1 = some dat) : alook n (phase2Msg rname st data).1 = some dat := by
  unfold phase2Msg
  by_cases hc : st.2.contains (generate_message_hash data) = true
  · rw [if_pos hc]
    exact h
  · rw [if_neg hc]
    have hfree := resolveTarget_free st.1
      (generate_message_filename (setSourceRepo rname data))
    have hne : resolveTarget st.1 (generate_message_filename (setSourceRepo rname data))
        ≠ n := by
      intro heq
      rw [heq, h] at hfree
      simp at hfree
    rw [alook_cons_ne hne]
    exact h

lemma foldl_phase2Msg_preserves (rname : String) :
    ∀ (msgs : List MessageData) (st : Dir × List String) {n : String} {dat : MessageData},
      alook n st.1 = some dat →
      alook n (msgs.foldl (phase2Msg rname) st).1 = some dat := by
  intro msgs
  induction msgs with
  | nil => intro st n dat h; exact h
  | cons m rest ih =>
    intro st n dat h
    exact ih _ (phase2Msg_preserves rname st m h)

lemma foldl_phase2Repo_preserves :
    ∀ (forks : List (String × List MessageData)) (st : Dir × List String)
      {n : String} {dat : MessageData},
      alook n st.1 = some dat →
      alook n (forks.foldl phase2Repo st).1 = some dat := by
  intro forks
  induction forks with
  | nil => intro st n dat h; exact h
  | cons f rest ih =>
    intro st n dat h
    exact ih _ (foldl_phase2Msg_preserves f.1 f.2 st h)

/-! ### Claim theorems for the fork merge -/

/-- Claim C1.  Two fork replicas each holding a message record with
identical content, author (`user` field) and timestamp — stored under
different source paths and possibly carrying different extra fields —
merge into a canonical directory holding exactly one copy of that logical
message: the dedup key hashes only the normalized
`{content, user, timestamp}` fields, so the second replica's copy is
skipped as seen regardless of path or source repository. -/
theorem fork_merge_dedup (c u t : String) (e1 e2 : List (String × String))
    (r1 r2 : String) :
    (copy_messages_to_main [] [(r1, [⟨c, u, t, e1⟩]), (r2, [⟨c, u, t, e2⟩])]).length = 1
    ∧ ∀ p ∈ copy_messages_to_main [] [(r1, [⟨c, u, t, e1⟩]), (r2, [⟨c, u, t, e2⟩])],
        p.2.content = c ∧ p.2.user = u ∧ p.2.timestamp = t := by
  have hh : generate_message_hash (⟨c, u, t, e2⟩ : MessageData)
      = generate_message_hash (⟨c, u, t, e1⟩ : MessageData) := rfl
  have h1 : phase2Msg r1 (([] : Dir), ([] : List String)) ⟨c, u, t, e1⟩
      = ([(resolveTarget [] (generate_message_filename (setSourceRepo r1 ⟨c, u, t, e1⟩)),
           setSourceRepo r1 ⟨c, u, t, e1⟩)],
         [generate_message_hash (⟨c, u, t, e1⟩ : MessageData)]) := by
    unfold phase2Msg
    rw [if_neg (by simp)]
    rfl
  have h2 : phase2Msg r2
      ([(resolveTarget [] (generate_message_filename (setSourceRepo r1 ⟨c, u, t, e1⟩)),
         setSourceRepo r1 ⟨c, u, t, e1⟩)],
       [generate_message_hash (⟨c, u, t, e1⟩ : MessageData)]) ⟨c, u, t, e2⟩
      = ([(resolveTarget [] (generate_message_filename (setSourceRepo r1 ⟨c, u, t, e1⟩)),
           setSourceRepo r1 ⟨c, u, t, e1⟩)],
         [generate_message_hash (⟨c, u, t, e1⟩ : MessageData)]) := by
    unfold phase2Msg
    rw [if_pos (by simp [hh])]
  have hrun : copy_messages_to_main [] [(r1, [⟨c, u, t, e1⟩]), (r2, [⟨c, u, t, e2⟩])]
      = [(resolveTarget [] (generate_message_filename (setSourceRepo r1 ⟨c, u, t, e1⟩)),
          setSourceRepo r1 ⟨c, u, t, e1⟩)] := by
    show ((phase2Repo (phase2Repo (phase1 []) (r1, [⟨c, u, t, e1⟩]))
      (r2, [⟨c, u, t, e2⟩]))).1 = _
    rw [show phase1 [] = (([] : Dir), ([] : List String)) from rfl]
    unfold phase2Repo
    simp only [List.foldl_cons, List.foldl_nil]
    rw [h1, h2]
  rw [hrun]
  refine ⟨rfl, ?_⟩
  intro p hp
  simp only [List.mem_singleton] at hp
  subst hp
  exact ⟨rfl, rfl, rfl⟩

/-- Counterexample to claim C10 as stated.  A merge run with no forks at all
removes a pre-existing canonical file: the normalization pass renames
`legacy.json` to its hash-qualified name, finds that name occupied by a
file with the same dedup hash (same content, user, timestamp but without
the extra field), and deletes `legacy.json` — so not every pre-existing
canonical message file's contents survive a merge run. -/
theorem copy_deletes_preexisting_counterexample :
    alook "legacy.json"
        [("legacy.json", (⟨"hi", "x", "2025-01-01T00:00:00Z", [("k", "1")]⟩ : MessageData)),
         (generate_message_filename ⟨"hi", "x", "2025-01-01T00:00:00Z", [("k", "1")]⟩,
          (⟨"hi", "x", "2025-01-01T00:00:00Z", []⟩ : MessageData))]
      = some ⟨"hi", "x", "2025-01-01T00:00:00Z", [("k", "1")]⟩
    ∧ alook "legacy.json"
        (copy_messages_to_main
          [("legacy.json", ⟨"hi", "x", "2025-01-01T00:00:00Z", [("k", "1")]⟩),
           (generate_message_filename ⟨"hi", "x", "2025-01-01T00:00:00Z", [("k", "1")]⟩,
            ⟨"hi", "x", "2025-01-01T00:00:00Z", []⟩)] [])
      = none := by
  constructor
  · decide
  · decide

/-- Claim C10 (amended).  The fork-copy phase never overwrites an existing
file: the target-selection of the copy loop always yields a name unused in
the current directory (the generated hash-qualified name when free,
otherwise the first free name with an incrementing numeric suffix), and
consequently every file present when the copy phase starts still holds its
original content afterwards.  (The preliminary normalization pass may
rename a pre-existing file to its canonical name or delete a
hash-duplicate, which is why the conclusion is restricted to the copy
phase — see the counterexample.) -/
theorem copy_phase_no_overwrite :
    (∀ (d : Dir) (nf : String), alook (resolveTarget d nf) d = none
        ∧ (alook nf d = none → resolveTarget d nf = nf))
    ∧ ∀ (forks : List (String × List MessageData)) (dir : Dir) (seen : List String)
        (n : String) (dat : MessageData), alook n dir = some dat →
        alook n (forks.foldl phase2Repo (dir, seen)).1 = some dat :=
  ⟨fun d nf => ⟨resolveTarget_free d nf, fun h => resolveTarget_of_free h⟩,
   fun forks _ seen _ _ h => foldl_phase2Repo_preserves forks (_, seen) h⟩

/-- Witness for `copy_phase_no_overwrite` at concrete values. -/
theorem copy_phase_no_overwrite_witness :
    (alook "a.json" [("a.json", (⟨"m", "u", "t", []⟩ : MessageData))] = none →
      resolveTarget [("a.json", (⟨"m", "u", "t", []⟩ : MessageData))] "a.json" = "a.json")
    ∧ (alook "a.json" [("a.json", (⟨"m", "u", "t", []⟩ : MessageData))]
        = some ⟨"m", "u", "t", []⟩ →
       alook "a.json"
         ([("fork1", [(⟨"n", "v", "s", []⟩ : MessageData)])].foldl phase2Repo
           ([("a.json", (⟨"m", "u", "t", []⟩ : MessageData))], [])).1
         = some ⟨"m", "u", "t", []⟩)
    ∧ alook "a.json"
        ([("fork1", [(⟨"n", "v", "s", []⟩ : MessageData)])].foldl phase2Repo
          ([("a.json", (⟨"m", "u", "t", []⟩ : MessageData))], [])).1
        = some ⟨"m", "u", "t", []⟩ :=
  ⟨(copy_phase_no_overwrite.1 [("a.json", ⟨"m", "u", "t", []⟩)] "a.json").2,
   copy_phase_no_overwrite.2 [("fork1", [⟨"n", "v", "s", []⟩])]
     [("a.json", ⟨"m", "u", "t", []⟩)] [] "a.json" ⟨"m", "u", "t", []⟩,
   copy_phase_no_overwrite.2 [("fork1", [⟨"n", "v", "s", []⟩])]
     [("a.json", ⟨"m", "u", "t", []⟩)] [] "a.json" ⟨"m", "u", "t", []⟩ (by decide)⟩

end Sync

end BookChat
